import Mathlib

/-!
# Chalkit — verification of the path-resolution-and-mutation engine

A shallow embedding of the `rendomnet/chalkit` repository: an in-memory
hierarchical store addressed by delimiter-separated paths, with structural
mutation operations (set, clear/remove, shallow/deep merge, keyed item
operations, array operations) and all-or-nothing batches with snapshot
rollback of the affected root keys.

Two revisions of the engine live in the repository and are both embedded:

* `src/Chalkit.ts` — the `executeOperation` revision (a single dispatcher
  keyed by an operation-name string); embedded as `Chalkit.execOp`.
* the chainable revision (`getTarget`-based methods, plus the `scribe`
  combined-syntax entry point with a `$` marker); embedded as
  `Chalkit.execOpW` and `Chalkit.scribe`.

JavaScript values are modelled by `Chalkit.Value`; plain objects are
association lists in key-insertion order, mirroring JS object semantics
(update keeps a key's position, fresh assignment appends at the end).
`lodash.cloneDeep` is the identity on pure values, so `smartCloneDeep`
disappears from the embedding; JS strict equality (`===`/`includes`) is
modelled by `jsEq`, which compares scalars by value and distinct composite
values as unequal (composites stored through the API are always deep
clones, hence never reference-identical to a caller-supplied item).
-/

namespace Chalkit

/-- A JavaScript value as stored in a Chalkit store: `null`, a boolean, a
number, a string, an array, or a plain object (an association list of
string keys in insertion order). -/
inductive Value : Type where
  | null : Value
  | bool (b : Bool) : Value
  | num (n : Int) : Value
  | str (s : String) : Value
  | arr (xs : List Value) : Value
  | obj (fields : List (String × Value)) : Value

/- Structural (deep) equality of JS values, the equality checked by the
tests' `toEqual`. `Value.beq`, `beqList` and `beqFields` decide it. -/
mutual

def Value.beq : Value → Value → Bool
  | .null, .null => true
  | .bool a, .bool b => a == b
  | .num a, .num b => a == b
  | .str a, .str b => a == b
  | .arr xs, .arr ys => beqList xs ys
  | .obj fs, .obj gs => beqFields fs gs
  | _, _ => false

def beqList : List Value → List Value → Bool
  | [], [] => true
  | x :: xs, y :: ys => Value.beq x y && beqList xs ys
  | _, _ => false

def beqFields : List (String × Value) → List (String × Value) → Bool
  | [], [] => true
  | (k, v) :: xs, (l, w) :: ys => k == l && Value.beq v w && beqFields xs ys
  | _, _ => false

end

mutual

theorem Value.eq_of_beq : ∀ {a b : Value}, Value.beq a b = true → a = b
  | .null, .null, _ => rfl
  | .bool _, .bool _, h => by
      simp only [Value.beq, beq_iff_eq] at h; rw [h]
  | .num _, .num _, h => by
      simp only [Value.beq, beq_iff_eq] at h; rw [h]
  | .str _, .str _, h => by
      simp only [Value.beq, beq_iff_eq] at h; rw [h]
  | .arr _, .arr _, h => by
      simp only [Value.beq] at h
      exact congrArg Value.arr (eqList_of_beqList h)
  | .obj _, .obj _, h => by
      simp only [Value.beq] at h
      exact congrArg Value.obj (eqFields_of_beqFields h)
  | .null, .bool _, h => nomatch h
  | .null, .num _, h => nomatch h
  | .null, .str _, h => nomatch h
  | .null, .arr _, h => nomatch h
  | .null, .obj _, h => nomatch h
  | .bool _, .null, h => nomatch h
  | .bool _, .num _, h => nomatch h
  | .bool _, .str _, h => nomatch h
  | .bool _, .arr _, h => nomatch h
  | .bool _, .obj _, h => nomatch h
  | .num _, .null, h => nomatch h
  | .num _, .bool _, h => nomatch h
  | .num _, .str _, h => nomatch h
  | .num _, .arr _, h => nomatch h
  | .num _, .obj _, h => nomatch h
  | .str _, .null, h => nomatch h
  | .str _, .bool _, h => nomatch h
  | .str _, .num _, h => nomatch h
  | .str _, .arr _, h => nomatch h
  | .str _, .obj _, h => nomatch h
  | .arr _, .null, h => nomatch h
  | .arr _, .bool _, h => nomatch h
  | .arr _, .num _, h => nomatch h
  | .arr _, .str _, h => nomatch h
  | .arr _, .obj _, h => nomatch h
  | .obj _, .null, h => nomatch h
  | .obj _, .bool _, h => nomatch h
  | .obj _, .num _, h => nomatch h
  | .obj _, .str _, h => nomatch h
  | .obj _, .arr _, h => nomatch h

theorem eqList_of_beqList : ∀ {xs ys : List Value}, beqList xs ys = true → xs = ys
  | [], [], _ => rfl
  | _ :: _, _ :: _, h => by
      simp only [beqList, Bool.and_eq_true] at h
      rw [Value.eq_of_beq h.1, eqList_of_beqList h.2]
  | [], _ :: _, h => nomatch h
  | _ :: _, [], h => nomatch h

theorem eqFields_of_beqFields :
    ∀ {xs ys : List (String × Value)}, beqFields xs ys = true → xs = ys
  | [], [], _ => rfl
  | (_, _) :: _, (_, _) :: _, h => by
      simp only [beqFields, Bool.and_eq_true, beq_iff_eq] at h
      obtain ⟨⟨h1, h2⟩, h3⟩ := h
      rw [h1, Value.eq_of_beq h2, eqFields_of_beqFields h3]
  | [], (_, _) :: _, h => nomatch h
  | (_, _) :: _, [], h => nomatch h

end

mutual

theorem Value.beq_refl : ∀ (a : Value), Value.beq a a = true
  | .null => rfl
  | .bool _ => by simp [Value.beq]
  | .num _ => by simp [Value.beq]
  | .str _ => by simp [Value.beq]
  | .arr xs => by simp only [Value.beq]; exact beqList_refl xs
  | .obj fs => by simp only [Value.beq]; exact beqFields_refl fs

theorem beqList_refl : ∀ (xs : List Value), beqList xs xs = true
  | [] => rfl
  | x :: xs => by
      simp only [beqList, Bool.and_eq_true]
      exact ⟨Value.beq_refl x, beqList_refl xs⟩

theorem beqFields_refl : ∀ (xs : List (String × Value)), beqFields xs xs = true
  | [] => rfl
  | (k, v) :: xs => by
      simp only [beqFields, Bool.and_eq_true]
      exact ⟨⟨beq_self_eq_true k, Value.beq_refl v⟩, beqFields_refl xs⟩

end

instance : DecidableEq Value := fun a b =>
  if h : Value.beq a b = true then isTrue (Value.eq_of_beq h)
  else isFalse (fun hh => h (hh ▸ Value.beq_refl a))

/-- A plain JS object: string keys with values, in insertion order. -/
abbrev Obj := List (String × Value)

/-- A Chalkit store (`Record<string, any>` at the root). -/
abbrev Store := Obj

/-- JS truthiness of a value (`if (x)`): `null`, `false`, `0` and `""` are
falsy; every array and object is truthy. -/
def truthy : Value → Bool
  | .null => false
  | .bool b => b
  | .num n => n != 0
  | .str s => s != ""
  | .arr _ => true
  | .obj _ => true

/-- Is the value a scalar (not an array and not a plain object)? -/
def Value.isScalar : Value → Bool
  | .arr _ => false
  | .obj _ => false
  | _ => true

/-- JS strict equality `===` (as used by `includes` and `!==` in the array
operations): scalars compare by value; a composite (array/object) compares
equal to nothing, since the store only ever holds deep clones of
caller-supplied composites, never the same reference. -/
def jsEq : Value → Value → Bool
  | .null, .null => true
  | .bool a, .bool b => a == b
  | .num a, .num b => a == b
  | .str a, .str b => a == b
  | _, _ => false

/-- Property read `o[k]` on a plain object: the value at the first (only)
occurrence of the key, or `none` for JS `undefined`. -/
def getKey : Obj → String → Option Value
  | [], _ => none
  | (k', v') :: rest, k => if k' = k then some v' else getKey rest k

/-- Property write `o[k] = v` on a plain object: an existing key keeps its
position; a fresh key is appended at the end (JS insertion order). -/
def setKey : Obj → String → Value → Obj
  | [], k, v => [(k, v)]
  | (k', v') :: rest, k, v =>
      if k' = k then (k, v) :: rest else (k', v') :: setKey rest k v

/-- Property deletion `delete o[k]`. -/
def delKey : Obj → String → Obj
  | [], _ => []
  | (k', v') :: rest, k =>
      if k' = k then delKey rest k else (k', v') :: delKey rest k

/-- `ensurePlainObject` semantics on a read value: keep a plain object,
replace anything else (including an absent value) with `{}`. -/
def coerceObj : Option Value → Obj
  | some (.obj o) => o
  | _ => []

/-- `ensureArray` semantics on a read value: keep an array, replace
anything else (including an absent value) with `[]`. -/
def coerceArr : Option Value → List Value
  | some (.arr xs) => xs
  | _ => []

/-- Object spread `{...t, ...p}`: assign each field of `p` over `t` in
order (existing keys updated in place, new keys appended). -/
def spreadMerge : Obj → Obj → Obj
  | t, [] => t
  | t, (k, v) :: rest => spreadMerge (setKey t k v) rest

/-- `String.split` of JavaScript for a one-character separator, on the
character list of the string: `"" ↦ [""]`, `"a.b" ↦ ["a","b"]`,
`"a." ↦ ["a",""]`. The divider and marker of the source are single
punctuation characters (`"."` and `"$"` by default). -/
def splitChars (sep : Char) : List Char → List (List Char)
  | [] => [[]]
  | c :: cs =>
      if c = sep then [] :: splitChars sep cs
      else
        match splitChars sep cs with
        | [] => [[c]]
        | g :: gs => (c :: g) :: gs

/-- `path.split(divider)` for a one-character divider. -/
def jsSplit (sep : Char) (s : String) : List String :=
  (splitChars sep s.data).map (fun cs => { data := cs })

/-- The final key of an address: `keys.pop()` after the split, with JS
`undefined` (an empty split result, which cannot happen) read as the empty
string — the source's `if (!finalKey)` check then rejects exactly the
empty final key. -/
def finalKeyOf (sep : Char) (path : String) : String :=
  ((jsSplit sep path).getLast?).getD ""

/-- The parent segments of an address: the split minus its last element. -/
def parentKeysOf (sep : Char) (path : String) : List String :=
  (jsSplit sep path).dropLast

/-- The first path segment of an address (the root key of the address):
`path.split(divider)[0]`. -/
def firstSeg (sep : Char) (path : String) : String :=
  ((jsSplit sep path).head?).getD ""

/-- Does the address pass the source's final-key check
(`if (!finalKey) throw …`)? -/
def pathOk (sep : Char) (path : String) : Bool :=
  finalKeyOf sep path ≠ ""

/-- The errors the embedded code can signal. -/
inductive Err : Type where
  /-- `"Invalid path: Missing target key"` from the final-key check. -/
  | missingTargetKey : Err
  /-- `"Unsupported operation '…'"` from `executeOperation`'s default case. -/
  | unsupportedOp (name : String) : Err
  /-- `"Invalid method: …"` from `batch` when the named method is not a
  function on the class. -/
  | invalidMethod (name : String) : Err
  /-- A JavaScript `TypeError` (property access/assignment through a value
  that is not an object). -/
  | typeError : Err
  /-- `"Invalid suffix: …"` from `scribe`; the argument is the suffix after
  the marker, `none` when the marker was absent (JS `undefined`). -/
  | invalidSuffix (suffix : Option String) : Err
  /-- `"Batch execution failed: …"` wrapping the message of the original
  mid-batch error. -/
  | batchFailed (cause : Err) : Err
deriving DecidableEq

/- lodash's `merge` (the deep merge used by the `deepMerge`/`mergeDeep`
operations), on this value model.  For each key of the source: if both
sides hold plain objects they merge recursively; if both sides hold
arrays they merge index-wise (elements at common indexes merge
recursively, surplus destination elements are kept); a plain-object
source merging into an array destination updates the elements named by
the source's canonical in-range numeric keys (its other keys would land
in expando properties on the array object, which this value model cannot
represent and therefore drops); in every other combination the source
value is assigned.  Source values are never `undefined` here, so lodash's
undefined-skipping rule never fires. -/
mutual

def mergeVal : Value → Value → Value
  | .obj t, .obj p => .obj (mergeObj t p)
  | .arr ys, .arr xs => .arr (mergeArr ys xs)
  | .arr ys, .obj p => .arr (mergeArrObj ys p)
  | _, src => src
termination_by structural _a src => src

def mergeObj : Obj → Obj → Obj
  | t, [] => t
  | t, (k, pv) :: rest =>
      mergeObj
        (setKey t k
          (match getKey t k with
           | some tv => mergeVal tv pv
           | none => pv))
        rest
termination_by structural _t p => p

def mergeArr : List Value → List Value → List Value
  | ys, [] => ys
  | [], x :: xs => x :: mergeArr [] xs
  | y :: ys, x :: xs => mergeVal y x :: mergeArr ys xs
termination_by structural _ys xs => xs

def mergeArrObj (ys : List Value) : Obj → List Value
  | [] => ys
  | (k, pv) :: rest =>
      match k.toNat? with
      | some i =>
          if h : toString i = k ∧ i < ys.length then
            mergeArrObj
              (ys.take i ++ mergeVal (ys.get ⟨i, h.2⟩) pv :: ys.drop (i + 1))
              rest
          else mergeArrObj ys rest
      | none => mergeArrObj ys rest
termination_by structural p => p

end

/-- `merge({}, existingData, newData)` from the deep-merge operations: the
existing mapping is copied into a fresh object, then `newData` is merged
over it.  A plain-object source merges key-wise; an array source
contributes its indexes as keys; a scalar source has no own enumerable
keys and leaves the result unchanged (a string source would contribute
its character indexes, a corner this model drops). -/
def mergeTop (existing : Obj) : Value → Obj
  | .obj p => mergeObj existing p
  | .arr xs => mergeObj existing ((List.range xs.length).zip xs |>.map
      (fun iv => (toString iv.1, iv.2)))
  | _ => existing

/-- The operations of `executeOperation` in `src/Chalkit.ts`, with the
payload shapes the public methods construct (`set`/`clear`/… each wrap
their arguments into the dispatcher's payload). The `unsupported`
constructor stands for an operation-name string outside the fixed set,
reaching the dispatcher's `default` case. -/
inductive Op : Type where
  | set (v : Value)
  | clear
  | merge (p : Obj)
  | deepSet (v : Value)
  | deepMerge (p : Obj)
  | itemSet (id : String) (data : Value)
  | itemMerge (id : String) (data : Obj)
  | itemDelete (id : String)
  | arrayAppend (items : List Value)
  | arrayToggle (item : Value)
  | arrayRemove (item : Value)
  | unsupported (name : String)

/-- The `switch (operation)` of `executeOperation` in `src/Chalkit.ts`,
acting on the resolved parent object `obj` and final key `fk`.
`smartCloneDeep` is the identity on pure values and disappears.

The `itemSet`/`itemMerge` cases of this revision do **not** coerce
`target[finalKey]` itself (unlike the chainable revision, `mutObjW`):
when its value is absent, `null` or a scalar, the source dereferences or
assigns through a non-object and throws a `TypeError`.  When it is an
array, the write lands in an expando property on the array object, which
this value model cannot represent; that corner is modelled as leaving the
representable state unchanged. -/
def mutObj (obj : Obj) (fk : String) : Op → Obj × Option Err
  | .set v => (setKey obj fk v, none)
  | .clear => (delKey obj fk, none)
  | .merge p =>
      (setKey obj fk (.obj (spreadMerge (coerceObj (getKey obj fk)) p)), none)
  | .deepSet v => (setKey obj fk v, none)
  | .deepMerge p =>
      -- `const newData = payload.data || payload;`
      let newData := match getKey p "data" with
                     | some d => if truthy d then d else .obj p
                     | none => .obj p
      (setKey obj fk (.obj (mergeTop (coerceObj (getKey obj fk)) newData)), none)
  | .itemSet id data =>
      match getKey obj fk with
      | some (.obj o) => (setKey obj fk (.obj (setKey o id data)), none)
      | some (.arr _) => (obj, none)
      | _ => (obj, some .typeError)
  | .itemMerge id data =>
      match getKey obj fk with
      | some (.obj o) =>
          (setKey obj fk
            (.obj (setKey o id (.obj (spreadMerge (coerceObj (getKey o id)) data)))),
           none)
      | some (.arr _) => (obj, none)
      | _ => (obj, some .typeError)
  | .itemDelete id =>
      match getKey obj fk with
      | some (.obj o) => (setKey obj fk (.obj (delKey o id)), none)
      | _ => (obj, none)
  | .arrayAppend items =>
      (setKey obj fk (.arr (coerceArr (getKey obj fk) ++ items)), none)
  | .arrayToggle item =>
      let list := coerceArr (getKey obj fk)
      (setKey obj fk (.arr
        (if list.any (fun x => jsEq x item)
         then list.filter (fun x => !(jsEq x item))
         else list ++ [item])), none)
  | .arrayRemove item =>
      -- `ensureArray` always runs; the filter only under `if (payload.item)`.
      let list := coerceArr (getKey obj fk)
      (setKey obj fk (.arr
        (if truthy item then list.filter (fun x => !(jsEq x item)) else list)),
       none)
  | .unsupported name => (obj, some (.unsupportedOp name))

/-- The traversal loop of `executeOperation`/`getTarget`: walk the parent
segments, replacing each traversed value that is not a plain object with
`{}` (`ensurePlainObject`), then apply the mutation `f` to the resolved
parent; the vivified chain stays in the store even when `f` reports an
error, as it does in the mutable original. -/
def walkOp : List String → Obj → (Obj → Obj × Option Err) → Obj × Option Err
  | [], obj, f => f obj
  | k :: ks, obj, f =>
      let r := walkOp ks (coerceObj (getKey obj k)) f
      (setKey obj k (.obj r.1), r.2)

/-- `executeOperation` of `src/Chalkit.ts`: split the path, pop the final
key, reject an empty final key before touching the store, then walk the
parents and dispatch.  Returns the new store and the error, if any; on an
error thrown inside the dispatch the store keeps the vivified parents,
exactly as the in-place original does. -/
def execOp (divider : Char) (s : Store) (path : String) (op : Op) :
    Store × Option Err :=
  if finalKeyOf divider path = "" then (s, some .missingTargetKey)
  else walkOp (parentKeysOf divider path) s
    (fun obj => mutObj obj (finalKeyOf divider path) op)

/-! ## The chainable revision (`getTarget`-based methods, `scribe`) -/

/-- The operations of the chainable revision's public methods.  This
revision has `remove` instead of `clear`, `mergeDeep` without the
`payload.data || payload` fallback, `itemMergeDeep`, and `arrayRemoveBy`;
and every `item*` method coerces `target[finalKey]` to a plain object
before touching the item slot. -/
inductive OpW : Type where
  | set (v : Value)
  | remove
  | merge (p : Obj)
  | mergeDeep (p : Obj)
  | itemSet (id : String) (data : Value)
  | itemMerge (id : String) (data : Obj)
  | itemMergeDeep (id : String) (data : Obj)
  | itemDelete (id : String)
  | arrayAppend (items : List Value)
  | arrayToggle (item : Value)
  | arrayRemove (item : Value)
  | arrayRemoveBy (property : String) (value : Value)

/-- Property read `v[k]` through an arbitrary value, as `arrayRemoveBy`'s
`item[property]` does: a plain object yields the field, anything else
yields JS `undefined` (arrays' `length`/index properties are a corner no
caller uses and are not modelled). -/
def getProp : Value → String → Option Value
  | .obj fs, k => getKey fs k
  | _, _ => none

/-- `a !== b` where `a` may be JS `undefined` (`none`): `undefined` is
strictly equal to nothing representable here, so the comparison is
`false` at `none`. -/
def jsEqOpt : Option Value → Value → Bool
  | some x, v => jsEq x v
  | none, _ => false

/-- The method bodies of the chainable revision, after `getTarget` has
resolved `(target, finalKey)`; every operation is total. -/
def mutObjW (obj : Obj) (fk : String) : OpW → Obj
  | .set v => setKey obj fk v
  | .remove => delKey obj fk
  | .merge p =>
      setKey obj fk (.obj (spreadMerge (coerceObj (getKey obj fk)) p))
  | .mergeDeep p =>
      setKey obj fk (.obj (mergeObj (coerceObj (getKey obj fk)) p))
  | .itemSet id data =>
      setKey obj fk (.obj (setKey (coerceObj (getKey obj fk)) id data))
  | .itemMerge id data =>
      let o := coerceObj (getKey obj fk)
      setKey obj fk (.obj (setKey o id
        (.obj (spreadMerge (coerceObj (getKey o id)) data))))
  | .itemMergeDeep id data =>
      let o := coerceObj (getKey obj fk)
      setKey obj fk (.obj (setKey o id
        (.obj (mergeObj (coerceObj (getKey o id)) data))))
  | .itemDelete id =>
      match getKey obj fk with
      | some (.obj o) => setKey obj fk (.obj (delKey o id))
      | _ => obj
  | .arrayAppend items =>
      setKey obj fk (.arr (coerceArr (getKey obj fk) ++ items))
  | .arrayToggle item =>
      let list := coerceArr (getKey obj fk)
      setKey obj fk (.arr
        (if list.any (fun x => jsEq x item)
         then list.filter (fun x => !(jsEq x item))
         else list ++ [item]))
  | .arrayRemove item =>
      -- no truthiness guard in this revision: the filter always runs
      setKey obj fk (.arr
        ((coerceArr (getKey obj fk)).filter (fun x => !(jsEq x item))))
  | .arrayRemoveBy property value =>
      setKey obj fk (.arr
        ((coerceArr (getKey obj fk)).filter
          (fun item => !(jsEqOpt (getProp item property) value))))

/-- An elementary mutation of the chainable revision: `getTarget` (split,
pop, final-key check, vivifying walk) followed by the method body, with
the default immediate mutator. -/
def execOpW (divider : Char) (s : Store) (path : String) (op : OpW) :
    Store × Option Err :=
  if finalKeyOf divider path = "" then (s, some .missingTargetKey)
  else walkOp (parentKeysOf divider path) s
    (fun obj => (mutObjW obj (finalKeyOf divider path) op, none))

/-- `value` read as a payload record: its fields if it is a plain object,
else no fields (mirrors spreading/merging a non-object, which
contributes no string-keyed properties worth modelling). -/
def fieldsOf : Value → Obj
  | .obj fs => fs
  | _ => []

/-- `value` read as the array payload of `arrayAppend`. -/
def elemsOf : Value → List Value
  | .arr xs => xs
  | _ => []

/-- A field of the payload record read as a property-key string, as in
`value.id` / `value.property`; every caller passes a string (other
shapes would go through JS ToPropertyKey, outside this model). -/
def strField (v : Value) (k : String) : String :=
  match getProp v k with
  | some (.str s) => s
  | _ => ""

/-- A field of the payload record read as an arbitrary value, as in
`value.data` / `value.value`; an absent field (JS `undefined`) is
approximated by `null`. -/
def anyField (v : Value) (k : String) : Value :=
  (getProp v k).getD .null

/-- A payload used directly as a property-key string (`itemDelete`). -/
def strOf : Value → String
  | .str s => s
  | _ => ""

/-- The dispatch table of `scribe`'s `switch (suffix)`: the operation (with
its payload unpacking) for each recognized suffix, `none` for the
`default` case — which both an unrecognized suffix and an absent marker
(JS `undefined` suffix) fall into. -/
def scribeOp (v : Value) : Option String → Option OpW
  | some "set" => some (.set v)
  | some "remove" => some .remove
  | some "merge" => some (.merge (fieldsOf v))
  | some "mergeDeep" => some (.mergeDeep (fieldsOf v))
  | some "itemSet" => some (.itemSet (strField v "id") (anyField v "data"))
  | some "itemMerge" =>
      some (.itemMerge (strField v "id") (fieldsOf (anyField v "data")))
  | some "itemMergeDeep" =>
      some (.itemMergeDeep (strField v "id") (fieldsOf (anyField v "data")))
  | some "itemDelete" => some (.itemDelete (strOf v))
  | some "arrayAppend" => some (.arrayAppend (elemsOf v))
  | some "arrayToggle" => some (.arrayToggle v)
  | some "arrayRemove" => some (.arrayRemove v)
  | some "arrayRemoveBy" =>
      some (.arrayRemoveBy (strField v "property") (anyField v "value"))
  | _ => none

/-- `scribe(pathWithSuffix, value)` of the chainable revision: split the
command at the marker, take the first chunk as the address and the second
as the suffix, and dispatch through `scribeOp`.  A missing marker leaves
the suffix as JS `undefined` (`none`); it falls into the same `default`
branch as an unrecognized suffix, producing the one and only
`Invalid suffix` error. -/
def scribe (marker divider : Char) (s : Store) (cmd : String) (v : Value) :
    Store × Option Err :=
  -- `const [path, suffix] = pathWithSuffix.split(this.marker);`
  -- the path is the chunk before the first marker — `firstSeg marker cmd` —
  -- and the suffix is the second chunk of the split, when present.
  match scribeOp v (jsSplit marker cmd)[1]? with
  | some op => execOpW divider s (firstSeg marker cmd) op
  | none => (s, some (.invalidSuffix (jsSplit marker cmd)[1]?))

/-! ## Batch coordinators -/

/-- One step of `batch` in `src/Chalkit.ts`: a method name with its
arguments.  A recognized method reduces to its packaged `Op`; a name that
is not a method of the class is kept as `invalid` and makes the step
throw `Invalid method` before dispatching. -/
inductive StepCall : Type where
  | op (o : Op)
  | invalid (name : String)

/-- A `{ method, args }` descriptor; `path` is `args[0]`, which is read
for the affected-keys computation even when the method name is invalid. -/
structure Step : Type where
  path : String
  call : StepCall

/-- The `operations.forEach` loop of `batch`: run each step in order,
stopping at (and returning) the first error together with the store as
already mutated by the failing step's traversal. -/
def runSteps (divider : Char) : Store → List Step → Store × Option Err
  | s, [] => (s, none)
  | s, st :: rest =>
      match st.call with
      | .invalid name => (s, some (.invalidMethod name))
      | .op o =>
          let r := execOp divider s st.path o
          match r.2 with
          | some e => (r.1, some e)
          | none => runSteps divider r.1 rest

/-- The pre-batch snapshot: for every affected root key, its current value
(`none` records an absent key).  `cloneDeep` is the identity on pure
values.  The source keeps the keys in a `Set`; the duplicates this list
may carry restore the same pairing twice, which is harmless. -/
def snapshotOf (s : Store) (ks : List String) : List (String × Option Value) :=
  ks.map (fun k => (k, getKey s k))

/-- The rollback loop: restore every snapshotted root key, deleting the
ones that were absent before the batch. -/
def rollback : Store → List (String × Option Value) → Store
  | s, [] => s
  | s, (k, some v) :: rest => rollback (setKey s k v) rest
  | s, (k, none) :: rest => rollback (delKey s k) rest

/-- `batch` of `src/Chalkit.ts`: compute the affected root keys (the first
path segment of every step's `args[0]`), snapshot them, run the steps,
and on any failure roll the affected keys back and wrap the error. -/
def batch (divider : Char) (s : Store) (steps : List Step) :
    Store × Option Err :=
  let snap := snapshotOf s (steps.map (fun st => firstSeg divider st.path))
  let r := runSteps divider s steps
  match r.2 with
  | none => (r.1, none)
  | some e => (rollback r.1 snap, some (.batchFailed e))

/-- The affected root key of a `scribeBatch` step:
`path.split(divider)[0].split(marker)[0]`. -/
def scribeStepKey (divider marker : Char) (p : String) : String :=
  ((jsSplit marker (firstSeg divider p)).head?).getD ""

/-- The `operations.forEach` loop of `scribeBatch`. -/
def runScribeSteps (marker divider : Char) :
    Store → List (String × Value) → Store × Option Err
  | s, [] => (s, none)
  | s, (cmd, v) :: rest =>
      let r := scribe marker divider s cmd v
      match r.2 with
      | some e => (r.1, some e)
      | none => runScribeSteps marker divider r.1 rest

/-- `scribeBatch` of the chainable revision: affected keys from the
command strings, snapshot, run `scribe` per step, roll back on failure
and wrap the error. -/
def scribeBatch (marker divider : Char) (s : Store)
    (ops : List (String × Value)) : Store × Option Err :=
  let snap := snapshotOf s (ops.map (fun op => scribeStepKey divider marker op.1))
  let r := runScribeSteps marker divider s ops
  match r.2 with
  | none => (r.1, none)
  | some e => (rollback r.1 snap, some (.batchFailed e))

end Chalkit

section BasicChecks

open Chalkit

example : setKey [("a", .num 1), ("b", .num 2)] "a" (.num 9) =
    [("a", .num 9), ("b", .num 2)] := by decide

example : setKey [("a", .num 1)] "c" (.num 3) =
    [("a", .num 1), ("c", .num 3)] := by decide

example : getKey [("a", .num 1), ("b", .num 2)] "b" = some (.num 2) := by decide

example : delKey [("a", .num 1), ("b", .num 2)] "a" = [("b", .num 2)] := by decide

example : spreadMerge [("a", .num 1), ("b", .num 2)] [("b", .num 3), ("c", .num 4)] =
    [("a", .num 1), ("b", .num 3), ("c", .num 4)] := by decide

example : jsSplit '.' "a.b.c" = ["a", "b", "c"] := by decide

example : jsSplit '.' "" = [""] := by decide

example : jsSplit '.' "a." = ["a", ""] := by decide

example : execOp '.' [] "a.b.c" (.set (.num 5)) =
    ([("a", .obj [("b", .obj [("c", .num 5)])])], none) := by decide

example : execOp '.' [] "user" (.set (.obj [("name", .str "John")])) =
    ([("user", .obj [("name", .str "John")])], none) := by decide

example :
    mergeObj [("a", .obj [("x", .num 1), ("y", .num 2)])]
      [("a", .obj [("y", .num 3), ("z", .num 4)])] =
    [("a", .obj [("x", .num 1), ("y", .num 3), ("z", .num 4)])] := by decide

example : mergeArr [.num 1, .num 2, .num 3] [.num 9] = [.num 9, .num 2, .num 3] := by
  decide

/- Replays of the repository's own test suite against the embedding. -/

-- "should handle batch operations"
example :
    batch '.' []
      [⟨"user", .op (.set (.obj [("name", .str "John")]))⟩,
       ⟨"settings", .op (.set (.obj [("theme", .str "dark")]))⟩] =
    ([("user", .obj [("name", .str "John")]),
      ("settings", .obj [("theme", .str "dark")])], none) := by decide

-- "should rollback on batch operation failure"
example :
    batch '.' [("user", .obj [("name", .str "Initial")])]
      [⟨"user", .op (.merge [("name", .str "John")])⟩,
       ⟨"settings", .invalid "invalid"⟩] =
    ([("user", .obj [("name", .str "Initial")])],
     some (.batchFailed (.invalidMethod "invalid"))) := by decide

-- "should merge values"
example :
    execOp '.' [("user", .obj [("name", .str "John")])] "user"
      (.merge [("age", .num 30)]) =
    ([("user", .obj [("name", .str "John"), ("age", .num 30)])], none) := by decide

-- "should handle array operations" (append, toggle in, toggle out, remove)
example :
    execOp '.' [] "todos" (.arrayAppend [.str "Task 1", .str "Task 2"]) =
    ([("todos", .arr [.str "Task 1", .str "Task 2"])], none) := by decide

example :
    execOp '.' [("todos", .arr [.str "Task 1", .str "Task 2"])] "todos"
      (.arrayToggle (.str "Task 3")) =
    ([("todos", .arr [.str "Task 1", .str "Task 2", .str "Task 3"])], none) := by
  decide

example :
    execOp '.' [("todos", .arr [.str "Task 1", .str "Task 2", .str "Task 3"])]
      "todos" (.arrayToggle (.str "Task 2")) =
    ([("todos", .arr [.str "Task 1", .str "Task 3"])], none) := by decide

example :
    execOp '.' [("todos", .arr [.str "Task 1", .str "Task 3"])] "todos"
      (.arrayRemove (.str "Task 3")) =
    ([("todos", .arr [.str "Task 1"])], none) := by decide

-- "should handle item operations" — the chainable revision coerces first
example :
    execOpW '.' [] "users" (.itemSet "user1" (.obj [("name", .str "John")])) =
    ([("users", .obj [("user1", .obj [("name", .str "John")])])], none) := by
  decide

-- the `executeOperation` revision dereferences `undefined` instead
example :
    execOp '.' [] "users" (.itemSet "user1" (.obj [("name", .str "John")])) =
    ([], some .typeError) := by decide

-- "should handle scribe operations" / "should throw error for invalid
-- scribe suffix"
example :
    scribe '$' '.' [] "user$set" (.obj [("name", .str "John")]) =
    ([("user", .obj [("name", .str "John")])], none) := by decide

example :
    scribe '$' '.' [] "user$invalid" (.obj [("name", .str "John")]) =
    ([], some (.invalidSuffix (some "invalid"))) := by decide

example :
    scribe '$' '.' [] "user" (.obj [("name", .str "John")]) =
    ([], some (.invalidSuffix none)) := by decide

-- "should rollback scribeBatch on failure"
example :
    scribeBatch '$' '.' [("user", .obj [("name", .str "Initial")])]
      [("user$merge", .obj [("age", .num 30)]),
       ("user$invalid", .obj [("something", .str "wrong")])] =
    ([("user", .obj [("name", .str "Initial")])],
     some (.batchFailed (.invalidSuffix (some "invalid")))) := by decide

-- "should merge deeply nested values" (one level of it)
example :
    execOpW '.'
      [("user", .obj [("profile", .obj [("personal", .obj
        [("name", .str "John"),
         ("contact", .obj [("email", .str "john@example.com")])])])])]
      "user.profile.personal.contact"
      (.mergeDeep [("phone", .str "123-456-7890")]) =
    ([("user", .obj [("profile", .obj [("personal", .obj
        [("name", .str "John"),
         ("contact", .obj [("email", .str "john@example.com"),
                           ("phone", .str "123-456-7890")])])])])], none) := by
  decide

-- the `payload.data || payload` fallback of `deepMerge`: a truthy `data`
-- field replaces the whole payload
example :
    mutObj [("u", .obj [])] "u" (.deepMerge [("data", .num 1), ("y", .num 2)]) =
    ([("u", .obj [])], none) := by decide

-- lodash `merge` merges arrays index-wise (`_.merge({a:[1,2,3]}, {a:[9]})`)
example :
    mergeObj [("a", .arr [.num 1, .num 2, .num 3])] [("a", .arr [.num 9])] =
    [("a", .arr [.num 9, .num 2, .num 3])] := by decide

end BasicChecks

namespace Chalkit

/-! ## Basic lemmas about object reads and writes -/

theorem getKey_setKey_self (o : Obj) (k : String) (v : Value) :
    getKey (setKey o k v) k = some v := by
  induction o with
  | nil => simp [setKey, getKey]
  | cons kv rest ih =>
      obtain ⟨k', v'⟩ := kv
      by_cases h : k' = k
      · simp [setKey, getKey, h]
      · simp [setKey, getKey, h, ih]

theorem getKey_setKey_ne (o : Obj) (k : String) (v : Value) (k' : String)
    (h : k ≠ k') : getKey (setKey o k v) k' = getKey o k' := by
  induction o with
  | nil => simp [setKey, getKey, h]
  | cons kv rest ih =>
      obtain ⟨k₀, v₀⟩ := kv
      by_cases h₀ : k₀ = k
      · simp [setKey, getKey, h₀, h]
      · simp only [setKey, if_neg h₀, getKey]
        by_cases h₁ : k₀ = k'
        · simp [h₁]
        · simp [h₁, ih]

theorem getKey_delKey_self (o : Obj) (k : String) :
    getKey (delKey o k) k = none := by
  induction o with
  | nil => simp [delKey, getKey]
  | cons kv rest ih =>
      obtain ⟨k₀, v₀⟩ := kv
      by_cases h₀ : k₀ = k
      · simpa [delKey, h₀] using ih
      · simpa [delKey, getKey, h₀] using ih

theorem getKey_delKey_ne (o : Obj) (k k' : String) (h : k' ≠ k) :
    getKey (delKey o k) k' = getKey o k' := by
  induction o with
  | nil => simp [delKey, getKey]
  | cons kv rest ih =>
      obtain ⟨k₀, v₀⟩ := kv
      by_cases h₀ : k₀ = k
      · subst h₀
        have h₁ : k₀ ≠ k' := fun hh => h (hh ▸ rfl)
        simpa [delKey, getKey, h₁] using ih
      · by_cases h₁ : k₀ = k'
        · subst h₁
          simp [delKey, getKey, h₀, h]
        · simpa [delKey, getKey, h₀, h₁] using ih

theorem setKey_setKey (o : Obj) (k : String) (a b : Value) :
    setKey (setKey o k a) k b = setKey o k b := by
  induction o with
  | nil => simp [setKey]
  | cons kv rest ih =>
      obtain ⟨k₀, v₀⟩ := kv
      by_cases h₀ : k₀ = k
      · simp [setKey, h₀]
      · simp [setKey, h₀, ih]

theorem setKey_eq_of_getKey (o : Obj) (k : String) (v : Value)
    (h : getKey o k = some v) : setKey o k v = o := by
  induction o with
  | nil => simp [getKey] at h
  | cons kv rest ih =>
      obtain ⟨k₀, v₀⟩ := kv
      by_cases h₀ : k₀ = k
      · subst h₀
        simp only [getKey, if_pos] at h
        obtain rfl : v₀ = v := by simpa using h
        simp [setKey]
      · simp only [getKey, if_neg h₀] at h
        simp [setKey, h₀, ih h]

end Chalkit

namespace Chalkit

/-! ## Spread-merge lemmas (for `merge` idempotence) -/

theorem getKey_spreadMerge_not_mem (p : Obj) (t : Obj) (k : String)
    (h : ∀ kv ∈ p, kv.1 ≠ k) :
    getKey (spreadMerge t p) k = getKey t k := by
  induction p generalizing t with
  | nil => rfl
  | cons kv rest ih =>
      obtain ⟨k₀, v₀⟩ := kv
      have hk₀ : k₀ ≠ k := h (k₀, v₀) (List.mem_cons_self _ _)
      have hrest : ∀ kv ∈ rest, kv.1 ≠ k := fun kv hkv => h kv (List.mem_cons_of_mem _ hkv)
      simpa [spreadMerge, ih _ hrest] using getKey_setKey_ne t k₀ v₀ k hk₀

theorem spreadMerge_idem (p : Obj) (t : Obj)
    (hp : (p.map Prod.fst).Nodup) :
    spreadMerge (spreadMerge t p) p = spreadMerge t p := by
  induction p generalizing t with
  | nil => rfl
  | cons kv rest ih =>
      obtain ⟨k, v⟩ := kv
      simp only [List.map_cons, List.nodup_cons, List.mem_map] at hp
      obtain ⟨hknotin, hrest⟩ := hp
      have hne : ∀ kv ∈ rest, kv.1 ≠ k := by
        intro kv hkv heq
        exact hknotin ⟨kv, hkv, heq⟩
      have hget : getKey (spreadMerge (setKey t k v) rest) k = some v := by
        rw [getKey_spreadMerge_not_mem rest (setKey t k v) k hne]
        exact getKey_setKey_self t k v
      calc spreadMerge (spreadMerge t ((k, v) :: rest)) ((k, v) :: rest)
          = spreadMerge (setKey (spreadMerge (setKey t k v) rest) k v) rest := rfl
        _ = spreadMerge (spreadMerge (setKey t k v) rest) rest := by
              rw [setKey_eq_of_getKey _ _ _ hget]
        _ = spreadMerge (setKey t k v) rest := ih _ hrest

/-! ## Traversal lemmas -/

/-- The parent object `getTarget`/the walk would resolve: descend through
the segments, reading a missing or non-object value as `{}`. -/
def resolveSegs : List String → Obj → Obj
  | [], obj => obj
  | k :: ks, obj => resolveSegs ks (coerceObj (getKey obj k))

/-- Pure read of a chain of keys through plain objects (no vivification):
the value reached, or `none` when a segment is absent or a non-object is
traversed. -/
def readVal : Value → List String → Option Value
  | v, [] => some v
  | .obj fs, k :: ks =>
      match getKey fs k with
      | some v => readVal v ks
      | none => none
  | _, _ :: _ => none

/-- Pure read of a chain of keys from the store root. -/
def readPath (s : Store) (ks : List String) : Option Value :=
  readVal (.obj s) ks

theorem walkOp_err (ks : List String) (obj : Obj) (f : Obj → Obj × Option Err) :
    (walkOp ks obj f).2 = (f (resolveSegs ks obj)).2 := by
  induction ks generalizing obj with
  | nil => rfl
  | cons k ks ih => simp [walkOp, resolveSegs, ih]

theorem readVal_walkOp (ks : List String) (obj : Obj) (f : Obj → Obj × Option Err) :
    readVal (.obj (walkOp ks obj f).1) ks = some (.obj (f (resolveSegs ks obj)).1) := by
  induction ks generalizing obj with
  | nil => rfl
  | cons k ks ih =>
      simp only [walkOp, resolveSegs, readVal, getKey_setKey_self]
      exact ih _

theorem getKey_walkOp_cons_ne (k : String) (ks : List String) (obj : Obj)
    (f : Obj → Obj × Option Err) (k' : String) (h : k ≠ k') :
    getKey (walkOp (k :: ks) obj f).1 k' = getKey obj k' := by
  simp only [walkOp]
  exact getKey_setKey_ne _ _ _ _ h

theorem walkOp_idem (ks : List String) (obj : Obj) (f : Obj → Obj × Option Err)
    (hf : ∀ o, f (f o).1 = f o) :
    walkOp ks (walkOp ks obj f).1 f = walkOp ks obj f := by
  induction ks generalizing obj with
  | nil => exact hf obj
  | cons k ks ih =>
      simp only [walkOp, getKey_setKey_self, coerceObj, ih, setKey_setKey]

end Chalkit

namespace Chalkit

/-! ## Frame lemmas: a mutation touches only its own key -/

theorem getKey_mutObj_ne (obj : Obj) (fk : String) (op : Op) (k' : String)
    (h : fk ≠ k') : getKey (mutObj obj fk op).1 k' = getKey obj k' := by
  have hd : ∀ v, getKey (setKey obj fk v) k' = getKey obj k' :=
    fun v => getKey_setKey_ne obj fk v k' h
  cases op with
  | set v => exact hd _
  | clear => exact getKey_delKey_ne obj fk k' (fun hh => h hh.symm)
  | merge p => exact hd _
  | deepSet v => exact hd _
  | deepMerge p => exact hd _
  | itemSet id data =>
      simp only [mutObj]
      split
      · exact hd _
      · rfl
      · rfl
  | itemMerge id data =>
      simp only [mutObj]
      split
      · exact hd _
      · rfl
      · rfl
  | itemDelete id =>
      simp only [mutObj]
      split
      · exact hd _
      · rfl
  | arrayAppend items => exact hd _
  | arrayToggle item => exact hd _
  | arrayRemove item => exact hd _
  | unsupported name => rfl

theorem getKey_mutObjW_ne (obj : Obj) (fk : String) (op : OpW) (k' : String)
    (h : fk ≠ k') : getKey (mutObjW obj fk op) k' = getKey obj k' := by
  have hd : ∀ v, getKey (setKey obj fk v) k' = getKey obj k' :=
    fun v => getKey_setKey_ne obj fk v k' h
  cases op with
  | set v => exact hd _
  | remove => exact getKey_delKey_ne obj fk k' (fun hh => h hh.symm)
  | merge p => exact hd _
  | mergeDeep p => exact hd _
  | itemSet id data => exact hd _
  | itemMerge id data => exact hd _
  | itemMergeDeep id data => exact hd _
  | itemDelete id =>
      simp only [mutObjW]
      split
      · exact hd _
      · rfl
  | arrayAppend items => exact hd _
  | arrayToggle item => exact hd _
  | arrayRemove item => exact hd _
  | arrayRemoveBy property value => exact hd _

theorem getKey_execOp_ne (divider : Char) (s : Store) (path : String) (op : Op)
    (k' : String) (h : firstSeg divider path ≠ k') :
    getKey (execOp divider s path op).1 k' = getKey s k' := by
  unfold execOp
  split
  · rfl
  · rename_i hfk
    unfold finalKeyOf at hfk
    unfold parentKeysOf finalKeyOf
    unfold firstSeg at h
    cases hl : jsSplit divider path with
    | nil => rw [hl] at hfk; simp at hfk
    | cons a rest =>
        rw [hl] at hfk h
        cases rest with
        | nil =>
            simp only [List.head?] at h
            simp only [hl, List.dropLast_single, List.getLast?_singleton,
              Option.getD_some, walkOp]
            exact getKey_mutObj_ne s a op k' (by simpa using h)
        | cons b rest' =>
            simp only [List.head?] at h
            rw [List.dropLast_cons₂]
            exact getKey_walkOp_cons_ne a _ s _ k' (by simpa using h)

theorem getKey_execOpW_ne (divider : Char) (s : Store) (path : String)
    (op : OpW) (k' : String) (h : firstSeg divider path ≠ k') :
    getKey (execOpW divider s path op).1 k' = getKey s k' := by
  unfold execOpW
  split
  · rfl
  · rename_i hfk
    unfold finalKeyOf at hfk
    unfold parentKeysOf finalKeyOf
    unfold firstSeg at h
    cases hl : jsSplit divider path with
    | nil => rw [hl] at hfk; simp at hfk
    | cons a rest =>
        rw [hl] at hfk h
        cases rest with
        | nil =>
            simp only [List.head?] at h
            simp only [hl, List.dropLast_single, List.getLast?_singleton,
              Option.getD_some, walkOp]
            exact getKey_mutObjW_ne s a op k' (by simpa using h)
        | cons b rest' =>
            simp only [List.head?] at h
            rw [List.dropLast_cons₂]
            exact getKey_walkOp_cons_ne a _ s _ k' (by simpa using h)

end Chalkit

namespace Chalkit

/-! ## Batch rollback lemmas -/

theorem getKey_runSteps_ne (divider : Char) (steps : List Step) (s : Store)
    (k' : String) (h : ∀ st ∈ steps, firstSeg divider st.path ≠ k') :
    getKey (runSteps divider s steps).1 k' = getKey s k' := by
  induction steps generalizing s with
  | nil => rfl
  | cons st rest ih =>
      have hst : firstSeg divider st.path ≠ k' := h st (List.mem_cons_self _ _)
      have hrest : ∀ st ∈ rest, firstSeg divider st.path ≠ k' :=
        fun st hmem => h st (List.mem_cons_of_mem _ hmem)
      cases hc : st.call with
      | invalid name => simp [runSteps, hc]
      | op o =>
          simp only [runSteps, hc]
          cases he : (execOp divider s st.path o).2 with
          | some e => simpa using getKey_execOp_ne divider s st.path o k' hst
          | none =>
              simp only
              rw [ih _ hrest]
              exact getKey_execOp_ne divider s st.path o k' hst

theorem getKey_rollback_not_mem (snap : List (String × Option Value))
    (s : Store) (k : String) (h : ∀ e ∈ snap, e.1 ≠ k) :
    getKey (rollback s snap) k = getKey s k := by
  induction snap generalizing s with
  | nil => rfl
  | cons e rest ih =>
      obtain ⟨k₀, ov₀⟩ := e
      have hk₀ : k₀ ≠ k := h (k₀, ov₀) (List.mem_cons_self _ _)
      have hrest : ∀ e ∈ rest, e.1 ≠ k :=
        fun e hmem => h e (List.mem_cons_of_mem _ hmem)
      cases ov₀ with
      | some v =>
          simp only [rollback]
          rw [ih _ hrest]
          exact getKey_setKey_ne s k₀ v k hk₀
      | none =>
          simp only [rollback]
          rw [ih _ hrest]
          exact getKey_delKey_ne s k₀ k (fun hh => hk₀ hh.symm)

theorem getKey_rollback_mem (snap : List (String × Option Value)) (s : Store)
    (k : String) (ov : Option Value) (hmem : (k, ov) ∈ snap)
    (huniq : ∀ e ∈ snap, e.1 = k → e.2 = ov) :
    getKey (rollback s snap) k = ov := by
  induction snap generalizing s with
  | nil => simp at hmem
  | cons e rest ih =>
      obtain ⟨k₀, ov₀⟩ := e
      by_cases hk : ∃ e ∈ rest, e.1 = k
      · obtain ⟨e, he, hek⟩ := hk
        have he2 : e.2 = ov := huniq e (List.mem_cons_of_mem _ he) hek
        have hmem' : (k, ov) ∈ rest := by
          have : e = (k, ov) := Prod.ext hek he2
          rwa [this] at he
        have huniq' : ∀ e ∈ rest, e.1 = k → e.2 = ov :=
          fun e hmem hek => huniq e (List.mem_cons_of_mem _ hmem) hek
        cases ov₀ with
        | some v => exact ih _ hmem' huniq'
        | none => exact ih _ hmem' huniq'
      · have hrest : ∀ e ∈ rest, e.1 ≠ k := fun e he hek => hk ⟨e, he, hek⟩
        rcases List.mem_cons.mp hmem with heq | hmem'
        · injection heq with h1 h2
          subst h1
          subst h2
          cases ov with
          | some v =>
              simp only [rollback]
              rw [getKey_rollback_not_mem rest _ k hrest]
              exact getKey_setKey_self s k v
          | none =>
              simp only [rollback]
              rw [getKey_rollback_not_mem rest _ k hrest]
              exact getKey_delKey_self s k
        · exact absurd rfl (hrest _ hmem')

/-- The master rollback fact for `batch`: when a batch fails, every root
key of the store reads exactly as before the batch. -/
theorem getKey_batch_failed (divider : Char) (s : Store) (steps : List Step)
    (s' : Store) (err : Err) (hrun : batch divider s steps = (s', some err))
    (k : String) : getKey s' k = getKey s k := by
  unfold batch at hrun
  simp only [] at hrun
  cases hr : (runSteps divider s steps).2 with
  | none => rw [hr] at hrun; simp at hrun
  | some e =>
      rw [hr] at hrun
      simp only [Prod.mk.injEq] at hrun
      obtain ⟨hs', _⟩ := hrun
      subst hs'
      by_cases hmem : k ∈ steps.map (fun st => firstSeg divider st.path)
      · -- an affected key: restored from the snapshot
        apply getKey_rollback_mem
        · exact List.mem_map.mpr ⟨k, hmem, rfl⟩
        · intro e hmem' hek
          obtain ⟨x, _, rfl⟩ := List.mem_map.mp hmem'
          simpa [hek] using congrArg (getKey s) hek
      · -- an untouched key: no step and no rollback entry names it
        have hne : ∀ st ∈ steps, firstSeg divider st.path ≠ k := by
          intro st hst heq
          exact hmem (List.mem_map.mpr ⟨st, hst, heq⟩)
        rw [getKey_rollback_not_mem]
        · exact getKey_runSteps_ne divider steps s k hne
        · intro e hmem'
          obtain ⟨x, hx, rfl⟩ := List.mem_map.mp hmem'
          intro heq
          simp only at heq
          exact hmem (heq ▸ hx)

end Chalkit

namespace Chalkit

/-! ## `scribe` frame lemmas -/

theorem splitChars_ne_nil (sep : Char) (l : List Char) :
    splitChars sep l ≠ [] := by
  cases l with
  | nil => simp [splitChars]
  | cons c cs =>
      by_cases h : c = sep
      · simp [splitChars, h]
      · simp only [splitChars, if_neg h]
        split <;> simp

theorem head_splitChars (sep : Char) (l : List Char) :
    (splitChars sep l).head? = some (l.takeWhile (fun c => c != sep)) := by
  induction l with
  | nil => rfl
  | cons c cs ih =>
      by_cases h : c = sep
      · simp [splitChars, List.takeWhile_cons, h]
      · simp only [splitChars, if_neg h, List.takeWhile_cons]
        rcases hs : splitChars sep cs with _ | ⟨g, gs⟩
        · exact absurd hs (splitChars_ne_nil sep cs)
        · rw [hs] at ih
          simp only [List.head?, Option.some.injEq] at ih
          simp [List.head?, h, ih]

theorem firstSeg_eq_takeWhile (sep : Char) (s : String) :
    firstSeg sep s = { data := s.data.takeWhile (fun c => c != sep) } := by
  unfold firstSeg jsSplit
  rw [List.head?_map, head_splitChars]
  rfl

theorem takeWhile_takeWhile_comm (p q : Char → Bool) (l : List Char) :
    (l.takeWhile q).takeWhile p = (l.takeWhile p).takeWhile q := by
  induction l with
  | nil => rfl
  | cons a l ih =>
      by_cases hq : q a <;> by_cases hp : p a <;>
        simp [List.takeWhile_cons, hq, hp, ih]

theorem firstSeg_comm (c₁ c₂ : Char) (s : String) :
    firstSeg c₁ (firstSeg c₂ s) = firstSeg c₂ (firstSeg c₁ s) := by
  rw [firstSeg_eq_takeWhile c₂ s, firstSeg_eq_takeWhile c₁ s,
    firstSeg_eq_takeWhile, firstSeg_eq_takeWhile]
  simp only []
  rw [takeWhile_takeWhile_comm]

theorem scribeStepKey_eq (divider marker : Char) (cmd : String) :
    scribeStepKey divider marker cmd =
      firstSeg divider (firstSeg marker cmd) := by
  unfold scribeStepKey
  exact (firstSeg_comm marker divider cmd) ▸ rfl

theorem getKey_scribe_ne (marker divider : Char) (s : Store) (cmd : String)
    (v : Value) (k' : String) (h : scribeStepKey divider marker cmd ≠ k') :
    getKey (scribe marker divider s cmd v).1 k' = getKey s k' := by
  have hkey : firstSeg divider (firstSeg marker cmd) ≠ k' := by
    rw [scribeStepKey_eq] at h
    exact h
  unfold scribe
  cases h2 : scribeOp v (jsSplit marker cmd)[1]? with
  | none => rfl
  | some op => exact getKey_execOpW_ne divider s _ _ k' hkey

end Chalkit

namespace Chalkit

theorem getKey_runScribeSteps_ne (marker divider : Char)
    (ops : List (String × Value)) (s : Store) (k' : String)
    (h : ∀ op ∈ ops, scribeStepKey divider marker op.1 ≠ k') :
    getKey (runScribeSteps marker divider s ops).1 k' = getKey s k' := by
  induction ops generalizing s with
  | nil => rfl
  | cons op rest ih =>
      obtain ⟨cmd, v⟩ := op
      have hst : scribeStepKey divider marker cmd ≠ k' :=
        h (cmd, v) (List.mem_cons_self _ _)
      have hrest : ∀ op ∈ rest, scribeStepKey divider marker op.1 ≠ k' :=
        fun op hmem => h op (List.mem_cons_of_mem _ hmem)
      simp only [runScribeSteps]
      cases he : (scribe marker divider s cmd v).2 with
      | some e => simpa using getKey_scribe_ne marker divider s cmd v k' hst
      | none =>
          simp only
          rw [ih _ hrest]
          exact getKey_scribe_ne marker divider s cmd v k' hst

/-- The master rollback fact for `scribeBatch`: when the batch fails,
every root key of the store reads exactly as before the batch. -/
theorem getKey_scribeBatch_failed (marker divider : Char) (s : Store)
    (ops : List (String × Value)) (s' : Store) (err : Err)
    (hrun : scribeBatch marker divider s ops = (s', some err)) (k : String) :
    getKey s' k = getKey s k := by
  unfold scribeBatch at hrun
  simp only [] at hrun
  cases hr : (runScribeSteps marker divider s ops).2 with
  | none => rw [hr] at hrun; simp at hrun
  | some e =>
      rw [hr] at hrun
      simp only [Prod.mk.injEq] at hrun
      obtain ⟨hs', _⟩ := hrun
      subst hs'
      by_cases hmem : k ∈ ops.map (fun op => scribeStepKey divider marker op.1)
      · apply getKey_rollback_mem
        · exact List.mem_map.mpr ⟨k, hmem, rfl⟩
        · intro e hmem' hek
          obtain ⟨x, _, rfl⟩ := List.mem_map.mp hmem'
          simpa [hek] using congrArg (getKey s) hek
      · have hne : ∀ op ∈ ops, scribeStepKey divider marker op.1 ≠ k := by
          intro op hop heq
          exact hmem (List.mem_map.mpr ⟨op, hop, heq⟩)
        rw [getKey_rollback_not_mem]
        · exact getKey_runScribeSteps_ne marker divider ops s k hne
        · intro e hmem'
          obtain ⟨x, hx, rfl⟩ := List.mem_map.mp hmem'
          intro heq
          simp only at heq
          exact hmem (heq ▸ hx)

end Chalkit

namespace Chalkit

theorem batch_err_wraps (divider : Char) (s : Store) (steps : List Step)
    (s' : Store) (err : Err) (hrun : batch divider s steps = (s', some err)) :
    ∃ cause, (runSteps divider s steps).2 = some cause ∧
      err = .batchFailed cause := by
  unfold batch at hrun
  simp only [] at hrun
  cases hr : (runSteps divider s steps).2 with
  | none => rw [hr] at hrun; simp at hrun
  | some e =>
      rw [hr] at hrun
      simp only [Prod.mk.injEq, Option.some.injEq] at hrun
      exact ⟨e, rfl, hrun.2.symm⟩

theorem scribeBatch_err_wraps (marker divider : Char) (s : Store)
    (ops : List (String × Value)) (s' : Store) (err : Err)
    (hrun : scribeBatch marker divider s ops = (s', some err)) :
    ∃ cause, (runScribeSteps marker divider s ops).2 = some cause ∧
      err = .batchFailed cause := by
  unfold scribeBatch at hrun
  simp only [] at hrun
  cases hr : (runScribeSteps marker divider s ops).2 with
  | none => rw [hr] at hrun; simp at hrun
  | some e =>
      rw [hr] at hrun
      simp only [Prod.mk.injEq, Option.some.injEq] at hrun
      exact ⟨e, rfl, hrun.2.symm⟩

end Chalkit

namespace Chalkit

/-- **C1** — For every batch of steps and every store, if any step fails
then after `batch` returns (by throwing): every root key that was present
before the batch holds a value deeply equal to its pre-batch value; every
root key among the batch's first path segments that was absent before the
batch is absent again (even if the failed batch created it); and the
thrown error wraps the original cause.  The same holds for `scribeBatch`
of the chainable revision (root keys there are
`path.split(divider)[0].split(marker)[0]`). -/
theorem chalkit_c1_batch_rollback
    (divider : Char) (s : Store) (steps : List Step) (s' : Store) (err : Err)
    (hrun : batch divider s steps = (s', some err))
    (marker : Char) (s₂ : Store) (ops : List (String × Value)) (s₂' : Store)
    (err₂ : Err)
    (hrun₂ : scribeBatch marker divider s₂ ops = (s₂', some err₂)) :
    (∀ k v, getKey s k = some v → getKey s' k = some v) ∧
    (∀ st ∈ steps, getKey s (firstSeg divider st.path) = none →
        getKey s' (firstSeg divider st.path) = none) ∧
    (∃ cause, (runSteps divider s steps).2 = some cause ∧
        err = .batchFailed cause) ∧
    (∀ k v, getKey s₂ k = some v → getKey s₂' k = some v) ∧
    (∀ op ∈ ops, getKey s₂ (scribeStepKey divider marker op.1) = none →
        getKey s₂' (scribeStepKey divider marker op.1) = none) ∧
    (∃ cause, (runScribeSteps marker divider s₂ ops).2 = some cause ∧
        err₂ = .batchFailed cause) := by
  refine ⟨?_, ?_, batch_err_wraps divider s steps s' err hrun, ?_, ?_,
    scribeBatch_err_wraps marker divider s₂ ops s₂' err₂ hrun₂⟩
  · intro k v hv
    rw [getKey_batch_failed divider s steps s' err hrun k]
    exact hv
  · intro st _ habs
    rw [getKey_batch_failed divider s steps s' err hrun _]
    exact habs
  · intro k v hv
    rw [getKey_scribeBatch_failed marker divider s₂ ops s₂' err₂ hrun₂ k]
    exact hv
  · intro op _ habs
    rw [getKey_scribeBatch_failed marker divider s₂ ops s₂' err₂ hrun₂ _]
    exact habs

/-- Witness for C1 at the spec's own example: store `{user:{name:"Initial"}}`,
batch `[merge(user,{name:"John"}), invalid(settings,…)]` — the present root
key `user` still holds its old value, the absent root key `settings` is
absent again, and the error wraps the cause; likewise for `scribeBatch`
with `[user$merge, user$invalid]`. -/
theorem chalkit_c1_batch_rollback_witness :
    (batch '.' [("user", .obj [("name", .str "Initial")])]
        [⟨"user", .op (.merge [("name", .str "John")])⟩,
         ⟨"settings", .invalid "invalid"⟩] =
      ([("user", .obj [("name", .str "Initial")])],
       some (.batchFailed (.invalidMethod "invalid")))) ∧
    (getKey [("user", .obj [("name", .str "Initial")])] "user" =
      some (.obj [("name", .str "Initial")])) ∧
    (getKey [("user", .obj [("name", .str "Initial")])] "settings" = none) ∧
    (∃ cause,
      (runScribeSteps '$' '.' [("user", .obj [("name", .str "Initial")])]
          [("user$merge", .obj [("age", .num 30)]),
           ("user$invalid", .obj [("something", .str "wrong")])]).2 =
        some cause ∧
      (Err.batchFailed (.invalidSuffix (some "invalid"))) =
        .batchFailed cause) := by
  have h := chalkit_c1_batch_rollback '.'
    [("user", .obj [("name", .str "Initial")])]
    [⟨"user", .op (.merge [("name", .str "John")])⟩,
     ⟨"settings", .invalid "invalid"⟩]
    [("user", .obj [("name", .str "Initial")])]
    (.batchFailed (.invalidMethod "invalid")) (by decide)
    '$' [("user", .obj [("name", .str "Initial")])]
    [("user$merge", .obj [("age", .num 30)]),
     ("user$invalid", .obj [("something", .str "wrong")])]
    [("user", .obj [("name", .str "Initial")])]
    (.batchFailed (.invalidSuffix (some "invalid"))) (by decide)
  refine ⟨by decide, ?_, ?_, h.2.2.2.2.2⟩
  · exact h.1 "user" (.obj [("name", .str "Initial")]) (by decide)
  · exact h.2.1 ⟨"settings", .invalid "invalid"⟩
      (List.mem_cons_of_mem _ (List.mem_cons_self _ _)) (by decide)

end Chalkit

namespace Chalkit

theorem jsSplit_ne_nil (sep : Char) (s : String) : jsSplit sep s ≠ [] := by
  unfold jsSplit
  simp [splitChars_ne_nil]

theorem segs_eq (d : Char) (path : String) :
    jsSplit d path = parentKeysOf d path ++ [finalKeyOf d path] := by
  unfold parentKeysOf finalKeyOf
  rw [List.getLast?_eq_getLast _ (jsSplit_ne_nil d path), Option.getD_some]
  exact (List.dropLast_append_getLast (jsSplit_ne_nil d path)).symm

theorem readVal_append (as bs : List String) (v : Value) :
    readVal v (as ++ bs) = (readVal v as).bind (fun w => readVal w bs) := by
  induction as generalizing v with
  | nil => simp [readVal]
  | cons a as ih =>
      cases v with
      | obj fs =>
          simp only [List.cons_append, readVal]
          cases getKey fs a with
          | some w => exact ih w
          | none => rfl
      | null => rfl
      | bool b => rfl
      | num n => rfl
      | str s => rfl
      | arr xs => rfl

/-- **C2** — For every address and every store, path resolution replaces
each traversed intermediate segment whose current value is missing or not
a plain mapping with a fresh empty mapping before descending, and never
fails past the final-key check: whenever the final key is nonempty,
`set` succeeds and a pure read along the full address finds the written
value (so every intermediate was made a mapping). -/
theorem chalkit_c2_autovivify (d : Char) (s : Store) (path : String)
    (v : Value) (h : pathOk d path = true) :
    (execOp d s path (.set v)).2 = none ∧
    readPath (execOp d s path (.set v)).1 (jsSplit d path) = some v := by
  have hfk : ¬ finalKeyOf d path = "" := by simpa [pathOk] using h
  unfold execOp
  rw [if_neg hfk]
  constructor
  · rw [walkOp_err]
    rfl
  · unfold readPath
    rw [segs_eq d path, readVal_append, readVal_walkOp]
    simp [mutObj, readVal, getKey_setKey_self]

/-- Witness for C2 at the spec's example: on the empty store,
`set("a.b.c", 5)` succeeds, reads back `5` at `a.b.c`, and the store is
exactly `{a:{b:{c:5}}}`. -/
theorem chalkit_c2_autovivify_witness :
    ((execOp '.' [] "a.b.c" (.set (.num 5))).2 = none ∧
     readPath (execOp '.' [] "a.b.c" (.set (.num 5))).1
       (jsSplit '.' "a.b.c") = some (.num 5)) ∧
    execOp '.' [] "a.b.c" (.set (.num 5)) =
      ([("a", .obj [("b", .obj [("c", .num 5)])])], none) :=
  ⟨chalkit_c2_autovivify '.' [] "a.b.c" (.num 5) (by decide), by decide⟩

end Chalkit

namespace Chalkit

theorem mutObj_merge_idem (o : Obj) (fk : String) (P : Obj)
    (hP : (P.map Prod.fst).Nodup) :
    mutObj (mutObj o fk (.merge P)).1 fk (.merge P) = mutObj o fk (.merge P) := by
  simp only [mutObj]
  rw [getKey_setKey_self]
  simp only [coerceObj]
  rw [spreadMerge_idem P _ hP, setKey_setKey]

/-- **C8** — For every store, address and mapping payload `P` (a JS object:
no duplicate keys), shallow `merge` is idempotent:
`merge(merge(T,P),P) == merge(T,P)`, including the traversal. -/
theorem chalkit_c8_merge_idem (d : Char) (s : Store) (path : String) (P : Obj)
    (hP : (P.map Prod.fst).Nodup) :
    execOp d (execOp d s path (.merge P)).1 path (.merge P) =
      execOp d s path (.merge P) := by
  unfold execOp
  by_cases hfk : finalKeyOf d path = ""
  · simp [if_pos hfk]
  · simp only [if_neg hfk]
    exact walkOp_idem (parentKeysOf d path) s
      (fun obj => mutObj obj (finalKeyOf d path) (.merge P))
      (fun o => mutObj_merge_idem o (finalKeyOf d path) P hP)

/-- Witness for C8: merging `{age:30}` into `{user:{name:"John"}}` at
`user` twice equals merging once. -/
theorem chalkit_c8_merge_idem_witness :
    ((([("age", Value.num 30)] : Obj).map Prod.fst).Nodup) ∧
    (execOp '.'
        (execOp '.' [("user", .obj [("name", .str "John")])] "user"
          (.merge [("age", .num 30)])).1
        "user" (.merge [("age", .num 30)]) =
      execOp '.' [("user", .obj [("name", .str "John")])] "user"
        (.merge [("age", .num 30)])) ∧
    execOp '.' [("user", .obj [("name", .str "John")])] "user"
        (.merge [("age", .num 30)]) =
      ([("user", .obj [("name", .str "John"), ("age", .num 30)])], none) :=
  ⟨by decide,
   chalkit_c8_merge_idem '.' [("user", .obj [("name", .str "John")])] "user"
     [("age", .num 30)] (by decide),
   by decide⟩

/-- **C9** — Every elementary mutation whose address has first path
segment `k` changes at most the store's root entry at `k`: every other
root key reads as before, in both revisions, whether the operation
succeeds or fails. -/
theorem chalkit_c9_root_frame (d : Char) (s : Store) (path : String)
    (op : Op) (opw : OpW) (k' : String) (h : firstSeg d path ≠ k') :
    getKey (execOp d s path op).1 k' = getKey s k' ∧
    getKey (execOpW d s path opw).1 k' = getKey s k' :=
  ⟨getKey_execOp_ne d s path op k' h, getKey_execOpW_ne d s path opw k' h⟩

/-- Witness for C9: setting `user.name` leaves the `settings` root key
untouched in both revisions. -/
theorem chalkit_c9_root_frame_witness :
    (getKey (execOp '.' [("settings", .obj [("theme", .str "dark")])]
        "user.name" (.set (.str "John"))).1 "settings" =
      getKey [("settings", .obj [("theme", .str "dark")])] "settings") ∧
    (getKey (execOpW '.' [("settings", .obj [("theme", .str "dark")])]
        "user.name" (.set (.str "John"))).1 "settings" =
      getKey [("settings", .obj [("theme", .str "dark")])] "settings") :=
  chalkit_c9_root_frame '.' [("settings", .obj [("theme", .str "dark")])]
    "user.name" (.set (.str "John")) (.set (.str "John")) "settings" (by decide)

/-- **C10** — Deleting at a multi-segment address auto-vivifies the
intermediate containers even though it only removes a key: on any store
without root key `a`, `clear("a.b.c")` (and the chainable revision's
`remove`) leaves `{a:{b:{}}}` behind along the parent path. -/
theorem chalkit_c10_remove_vivifies (s : Store) (h : getKey s "a" = none) :
    execOp '.' s "a.b.c" .clear = (setKey s "a" (.obj [("b", .obj [])]), none) ∧
    execOpW '.' s "a.b.c" .remove =
      (setKey s "a" (.obj [("b", .obj [])]), none) := by
  have h1 : parentKeysOf '.' "a.b.c" = ["a", "b"] := by decide
  have h2 : finalKeyOf '.' "a.b.c" = "c" := by decide
  constructor
  · unfold execOp
    rw [h2, if_neg (by decide : ¬ ("c" : String) = ""), h1]
    simp [walkOp, h, coerceObj, getKey, mutObj, delKey, setKey]
  · unfold execOpW
    rw [h2, if_neg (by decide : ¬ ("c" : String) = ""), h1]
    simp [walkOp, h, coerceObj, getKey, mutObjW, delKey, setKey]

/-- Witness for C10: on the empty store, `remove("a.b.c")`/`clear("a.b.c")`
yields `{a:{b:{}}}` rather than leaving the store empty. -/
theorem chalkit_c10_remove_vivifies_witness :
    (execOp '.' [] "a.b.c" .clear =
      ([("a", .obj [("b", .obj [])])], none)) ∧
    (execOpW '.' [] "a.b.c" .remove =
      ([("a", .obj [("b", .obj [])])], none)) :=
  chalkit_c10_remove_vivifies [] (by decide)

end Chalkit

namespace Chalkit

/- Modelled from the spec's words (§4.2, deepMerge row), for refinement
comparison with the source-derived `mergeVal`/`mergeObj`: "recursively
merge payload into target: for each key, if both sides hold mapping
values, merge recursively; otherwise payload's value wins". -/
mutual

def specMergeVal : Value → Value → Value
  | .obj t, .obj p => .obj (specMergeObj t p)
  | _, pv => pv
termination_by structural _a pv => pv

def specMergeObj : Obj → Obj → Obj
  | t, [] => t
  | t, (k, pv) :: rest =>
      specMergeObj
        (setKey t k
          (match getKey t k with
           | some tv => specMergeVal tv pv
           | none => pv))
        rest
termination_by structural _t p => p

end

/- Compatibility of a destination value with a payload value: the region
on which lodash's `merge` behaves exactly as the spec's sentence says.
It fails where both sides hold sequences (lodash merges them index-wise
instead of letting the payload win) and where a mapping payload meets a
sequence destination (lodash merges the mapping's numeric keys into the
array object). -/
mutual

def mergeCompat : Value → Value → Bool
  | .obj t, .obj p => mergeCompatObj t p
  | .arr _, .arr _ => false
  | .arr _, .obj _ => false
  | _, _ => true
termination_by structural _a pv => pv

def mergeCompatObj : Obj → Obj → Bool
  | _, [] => true
  | t, (k, pv) :: rest =>
      (match getKey t k with
       | some tv => mergeCompat tv pv
       | none => true) && mergeCompatObj t rest
termination_by structural _t p => p

end

/- Well-formedness of a payload as a JS object: no duplicate keys at any
mapping level (a real JS object cannot carry two fields of one name). -/
mutual

def wfV : Value → Bool
  | .obj fs => wfFields fs
  | _ => true
termination_by structural v => v

def wfFields : List (String × Value) → Bool
  | [] => true
  | (k, v) :: rest =>
      !(rest.any (fun kv => kv.1 == k)) && wfV v && wfFields rest
termination_by structural fs => fs

end

/-- Does the `payload.data || payload` fallback of the `deepMerge` case
leave the payload itself in place?  True iff the payload has no truthy
`data` field. -/
def dataFallbackFree (p : Obj) : Bool :=
  match getKey p "data" with
  | some d => !(truthy d)
  | none => true

theorem mergeCompatObj_setKey (rest : Obj) (t : Obj) (k : String) (v' : Value)
    (h : rest.any (fun kv => kv.1 == k) = false) :
    mergeCompatObj (setKey t k v') rest = mergeCompatObj t rest := by
  induction rest with
  | nil => rfl
  | cons kv rest' ih =>
      obtain ⟨k₁, pv₁⟩ := kv
      simp only [List.any_cons, Bool.or_eq_false_iff] at h
      obtain ⟨hk₁, hrest⟩ := h
      have hne : k ≠ k₁ := by
        intro hh
        simp [hh] at hk₁
      simp only [mergeCompatObj, getKey_setKey_ne t k v' k₁ hne, ih hrest]

mutual

theorem mergeVal_eq_spec :
    ∀ (tv pv : Value), wfV pv = true → mergeCompat tv pv = true →
      mergeVal tv pv = specMergeVal tv pv
  | .obj t, .obj p, hwf, hc => by
      simp only [mergeVal, specMergeVal]
      exact congrArg Value.obj
        (mergeObj_eq_spec t p (by simpa [wfV] using hwf)
          (by simpa [mergeCompat] using hc))
  | .arr _, .arr _, _, hc => nomatch hc
  | .arr _, .obj _, _, hc => nomatch hc
  | .null, pv, _, _ => by cases pv <;> rfl
  | .bool _, pv, _, _ => by cases pv <;> rfl
  | .num _, pv, _, _ => by cases pv <;> rfl
  | .str _, pv, _, _ => by cases pv <;> rfl
  | .obj _, .null, _, _ => rfl
  | .obj _, .bool _, _, _ => rfl
  | .obj _, .num _, _, _ => rfl
  | .obj _, .str _, _, _ => rfl
  | .obj _, .arr _, _, _ => rfl
  | .arr _, .null, _, _ => rfl
  | .arr _, .bool _, _, _ => rfl
  | .arr _, .num _, _, _ => rfl
  | .arr _, .str _, _, _ => rfl

theorem mergeObj_eq_spec :
    ∀ (t p : Obj), wfFields p = true → mergeCompatObj t p = true →
      mergeObj t p = specMergeObj t p
  | _, [], _, _ => rfl
  | t, (k, pv) :: rest, hwf, hc => by
      simp only [wfFields, Bool.and_eq_true] at hwf
      obtain ⟨⟨hnotin, hwfv⟩, hwfrest⟩ := hwf
      simp only [mergeCompatObj, Bool.and_eq_true] at hc
      obtain ⟨hck, hcrest⟩ := hc
      have hnotin' : rest.any (fun kv => kv.1 == k) = false := by
        simpa using hnotin
      simp only [mergeObj, specMergeObj]
      cases hg : getKey t k with
      | none =>
          rw [hg] at hck
          simp only [hg]
          exact mergeObj_eq_spec _ rest hwfrest
            (by rw [mergeCompatObj_setKey rest t k pv hnotin']; exact hcrest)
      | some tv =>
          rw [hg] at hck
          simp only [hg]
          rw [mergeVal_eq_spec tv pv hwfv hck]
          exact mergeObj_eq_spec _ rest hwfrest
            (by rw [mergeCompatObj_setKey rest t k _ hnotin']; exact hcrest)

end

end Chalkit

namespace Chalkit

/-- **C3 counterexample** — the claim "deepMerge merges the payload into
the target recursively; otherwise the payload's value wins" fails as
stated: with target `{}` and payload `{data:1, y:2}`, the
`payload.data || payload` fallback replaces the payload by `1`, which has
no keys, so the code leaves `{}` where the claim requires
`{data:1, y:2}`. -/
theorem chalkit_c3_deepmerge_counterexample :
    mutObj [("u", .obj [])] "u" (.deepMerge [("data", .num 1), ("y", .num 2)]) ≠
      (setKey [("u", .obj [])] "u"
        (.obj (specMergeObj [] [("data", .num 1), ("y", .num 2)])), none) := by
  decide

/-- **C3 amended** — For every target and payload mapping in which the
payload carries no truthy `data` field (else the fallback replaces it)
and no position puts a sequence on both sides or a mapping payload onto a
sequence target (there lodash merges index-wise instead of replacing),
`deepMerge` merges the payload into the target exactly as the spec
sentence says: key-wise, recursively on mapping pairs, payload winning
otherwise. -/
theorem chalkit_c3_deepmerge_amended (parent : Obj) (fk : String) (p : Obj)
    (hwf : wfFields p = true) (hfree : dataFallbackFree p = true)
    (hc : mergeCompatObj (coerceObj (getKey parent fk)) p = true) :
    mutObj parent fk (.deepMerge p) =
      (setKey parent fk
        (.obj (specMergeObj (coerceObj (getKey parent fk)) p)), none) := by
  simp only [mutObj]
  cases hd : getKey p "data" with
  | none =>
      simp only [hd, mergeTop]
      rw [mergeObj_eq_spec _ p hwf hc]
  | some d =>
      have htr : truthy d = false := by
        unfold dataFallbackFree at hfree
        rw [hd] at hfree
        simpa using hfree
      simp only [hd, htr, Bool.false_eq_true, if_false, mergeTop]
      rw [mergeObj_eq_spec _ p hwf hc]

/-- Witness for the amended C3 at the spec's example:
`deepMerge({a:{x:1,y:2}}, {a:{y:3,z:4}}) == {a:{x:1,y:3,z:4}}`. -/
theorem chalkit_c3_deepmerge_amended_witness :
    (mutObj [("u", .obj [("a", .obj [("x", .num 1), ("y", .num 2)])])] "u"
        (.deepMerge [("a", .obj [("y", .num 3), ("z", .num 4)])]) =
      (setKey [("u", .obj [("a", .obj [("x", .num 1), ("y", .num 2)])])] "u"
        (.obj (specMergeObj
          (coerceObj (getKey
            [("u", .obj [("a", .obj [("x", .num 1), ("y", .num 2)])])] "u"))
          [("a", .obj [("y", .num 3), ("z", .num 4)])])), none)) ∧
    mutObj [("u", .obj [("a", .obj [("x", .num 1), ("y", .num 2)])])] "u"
        (.deepMerge [("a", .obj [("y", .num 3), ("z", .num 4)])]) =
      ([("u", .obj [("a", .obj
        [("x", .num 1), ("y", .num 3), ("z", .num 4)])])], none) :=
  ⟨chalkit_c3_deepmerge_amended
    [("u", .obj [("a", .obj [("x", .num 1), ("y", .num 2)])])] "u"
    [("a", .obj [("y", .num 3), ("z", .num 4)])]
    (by decide) (by decide) (by decide),
   by decide⟩

end Chalkit

namespace Chalkit

/-- **C4** — The claim (itemSet first coerces the target at the final key
to a mapping, then the item slot, and never fails when the address has a
final key) describes the chainable revision (`execOpW`) and the spec
table, but the `executeOperation` revision omits the first coercion: its
`itemSet` case dereferences `target[finalKey]` while it is `undefined`
and throws a `TypeError` — on the very input the repository's test
"should handle item operations" exercises. -/
theorem chalkit_c4_itemset_divergence :
    execOp '.' [] "users" (.itemSet "user1" (.obj [("name", .str "John")])) =
      ([], some .typeError) ∧
    execOpW '.' [] "users" (.itemSet "user1" (.obj [("name", .str "John")])) =
      ([("users", .obj [("user1", .obj [("name", .str "John")])])], none) := by
  decide

/-- Removal of exactly the elements equal to `item` (deep value equality),
keeping the others in order — the spec's description of `arrayRemove`. -/
def removeAllEq : List Value → Value → List Value
  | [], _ => []
  | x :: xs, item =>
      if x = item then removeAllEq xs item else x :: removeAllEq xs item

/-- How many elements of the list equal `item` (deep value equality). -/
def countEq : List Value → Value → Nat
  | [], _ => 0
  | x :: xs, item => (if x = item then 1 else 0) + countEq xs item

theorem jsEq_true_iff (x item : Value) (h : item.isScalar = true) :
    jsEq x item = true ↔ x = item := by
  cases item <;> cases x <;> simp_all [jsEq, Value.isScalar]

theorem filter_jsEq_eq_removeAllEq (l : List Value) (item : Value)
    (h : item.isScalar = true) :
    l.filter (fun x => !(jsEq x item)) = removeAllEq l item := by
  induction l with
  | nil => rfl
  | cons x xs ih =>
      by_cases hx : x = item
      · subst hx
        have hj : jsEq x x = true := (jsEq_true_iff x x h).mpr rfl
        simp [List.filter_cons, removeAllEq, hj, ih]
      · have hj : jsEq x item = false := by
          cases hb : jsEq x item
          · rfl
          · exact absurd ((jsEq_true_iff x item h).mp hb) hx
        simp [List.filter_cons, removeAllEq, hj, hx, ih]

/-- **C5 counterexample** — the claim fails as stated: `arrayRemove` with
the falsy item `0` removes nothing (the filter sits under
`if (payload.item)`), where the claim requires every element equal to `0`
to be removed. -/
theorem chalkit_c5_arrayremove_counterexample :
    mutObj [("t", .arr [.num 0, .num 1])] "t" (.arrayRemove (.num 0)) ≠
      (setKey [("t", .arr [.num 0, .num 1])] "t"
        (.arr (removeAllEq [.num 0, .num 1] (.num 0))), none) := by decide

/-- **C5 amended** — For every truthy scalar item, `arrayRemove` of the
`executeOperation` revision produces a new sequence excluding exactly the
elements equal to the item (deep value equality — which coincides with
the code's strict equality on scalars), keeping the others in order.
Falsy items remove nothing, and a composite item is never strictly equal
to the deep-cloned stored elements, so it removes nothing either (the
chainable revision drops only the truthiness guard). -/
theorem chalkit_c5_arrayremove_amended (parent : Obj) (fk : String)
    (item : Value) (h1 : truthy item = true) (h2 : item.isScalar = true) :
    mutObj parent fk (.arrayRemove item) =
      (setKey parent fk
        (.arr (removeAllEq (coerceArr (getKey parent fk)) item)), none) := by
  simp only [mutObj, h1, if_true]
  rw [filter_jsEq_eq_removeAllEq _ item h2]

/-- Witness for the amended C5: removing `"Task 3"` from
`["Task 1","Task 3"]` leaves `["Task 1"]`. -/
theorem chalkit_c5_arrayremove_amended_witness :
    (mutObj [("todos", .arr [.str "Task 1", .str "Task 3"])] "todos"
        (.arrayRemove (.str "Task 3")) =
      (setKey [("todos", .arr [.str "Task 1", .str "Task 3"])] "todos"
        (.arr (removeAllEq [.str "Task 1", .str "Task 3"] (.str "Task 3"))),
       none)) ∧
    removeAllEq [.str "Task 1", .str "Task 3"] (.str "Task 3") =
      [.str "Task 1"] :=
  ⟨chalkit_c5_arrayremove_amended [("todos", .arr [.str "Task 1", .str "Task 3"])]
    "todos" (.str "Task 3") (by decide) (by decide), by decide⟩

/-- The suffixes `scribe`'s `switch` recognizes. -/
def scribeSuffixes : List String :=
  ["set", "remove", "merge", "mergeDeep", "itemSet", "itemMerge",
   "itemMergeDeep", "itemDelete", "arrayAppend", "arrayToggle",
   "arrayRemove", "arrayRemoveBy"]

/-- The constructor kind of an error, for comparing failure kinds. -/
inductive ErrKind : Type where
  | missingTargetKey | unsupportedOp | invalidMethod
  | typeError | invalidSuffix | batchFailed
deriving DecidableEq

def errKind : Err → ErrKind
  | .missingTargetKey => .missingTargetKey
  | .unsupportedOp _ => .unsupportedOp
  | .invalidMethod _ => .invalidMethod
  | .typeError => .typeError
  | .invalidSuffix _ => .invalidSuffix
  | .batchFailed _ => .batchFailed

/-- **C6 counterexample** — the claim promises a `MalformedCommand` error
for a missing marker and a *distinct* `UnsupportedOperation` error for an
unrecognized suffix; the code produces one and the same error kind
(`Invalid suffix: …`) in both cases. -/
theorem chalkit_c6_scribe_counterexample :
    (scribe '$' '.' [] "user" .null).2.map errKind =
      (scribe '$' '.' [] "user$bogus" .null).2.map errKind ∧
    (scribe '$' '.' [] "user" .null).2.map errKind =
      some ErrKind.invalidSuffix := by decide

/-- **C6 amended** — every recognized suffix dispatches to an operation;
a command with no marker (so no second split chunk) fails with the
`Invalid suffix` error carrying an absent (`undefined`) suffix; a command
whose suffix is not recognized fails with the same `Invalid suffix` error
carrying that suffix — the two failures share one error kind and differ
only in the carried suffix, and the store is untouched in both cases. -/
theorem chalkit_c6_scribe_errors (s : Store) (cmd : String) (v : Value) :
    (∀ suf ∈ scribeSuffixes, ∃ op, scribeOp v (some suf) = some op) ∧
    ((jsSplit '$' cmd)[1]? = none →
      scribe '$' '.' s cmd v = (s, some (.invalidSuffix none))) ∧
    (scribeOp v (jsSplit '$' cmd)[1]? = none →
      scribe '$' '.' s cmd v = (s, some (.invalidSuffix (jsSplit '$' cmd)[1]?))) := by
  refine ⟨?_, ?_, ?_⟩
  · intro suf hsuf
    fin_cases hsuf <;> exact ⟨_, rfl⟩
  · intro h
    unfold scribe
    rw [h]
    rfl
  · intro h
    unfold scribe
    rw [h]

/-- Witness for the amended C6: `"user"` (no marker) and `"user$bogus"`
(unknown suffix) both fail with the `Invalid suffix` error, carrying
`undefined` and `"bogus"` respectively. -/
theorem chalkit_c6_scribe_errors_witness :
    scribe '$' '.' [] "user" .null = ([], some (.invalidSuffix none)) ∧
    scribe '$' '.' [] "user$bogus" .null =
      ([], some (.invalidSuffix (some "bogus"))) := by
  have h1 := (chalkit_c6_scribe_errors [] "user" .null).2.1 (by decide)
  have h2 := (chalkit_c6_scribe_errors [] "user$bogus" .null).2.2 rfl
  refine ⟨h1, ?_⟩
  rw [h2]
  decide

end Chalkit

namespace Chalkit

theorem any_jsEq_iff_mem (l : List Value) (item : Value)
    (h : item.isScalar = true) :
    l.any (fun x => jsEq x item) = true ↔ item ∈ l := by
  simp only [List.any_eq_true]
  constructor
  · rintro ⟨x, hx, hj⟩
    exact (jsEq_true_iff x item h).mp hj ▸ hx
  · intro hmem
    exact ⟨item, hmem, (jsEq_true_iff item item h).mpr rfl⟩

theorem not_mem_removeAllEq (l : List Value) (item : Value) :
    item ∉ removeAllEq l item := by
  induction l with
  | nil => simp [removeAllEq]
  | cons x xs ih =>
      by_cases hx : x = item
      · simpa [removeAllEq, hx] using ih
      · simp only [removeAllEq, if_neg hx, List.mem_cons, not_or]
        exact ⟨fun hh => hx hh.symm, ih⟩

theorem removeAllEq_append (l₁ l₂ : List Value) (item : Value) :
    removeAllEq (l₁ ++ l₂) item = removeAllEq l₁ item ++ removeAllEq l₂ item := by
  induction l₁ with
  | nil => rfl
  | cons x xs ih =>
      by_cases hx : x = item
      · simp [removeAllEq, hx, ih]
      · simp [removeAllEq, hx, ih]

theorem removeAllEq_of_not_mem (l : List Value) (item : Value)
    (h : item ∉ l) : removeAllEq l item = l := by
  induction l with
  | nil => rfl
  | cons x xs ih =>
      simp only [List.mem_cons, not_or] at h
      have hx : x ≠ item := fun hh => h.1 hh.symm
      simp [removeAllEq, hx, ih h.2]

theorem removeAllEq_idem (l : List Value) (item : Value) :
    removeAllEq (removeAllEq l item) item = removeAllEq l item :=
  removeAllEq_of_not_mem _ item (not_mem_removeAllEq l item)

theorem countEq_append (l₁ l₂ : List Value) (item : Value) :
    countEq (l₁ ++ l₂) item = countEq l₁ item + countEq l₂ item := by
  induction l₁ with
  | nil => simp [countEq]
  | cons x xs ih =>
      rw [List.cons_append]
      simp only [countEq]
      rw [ih]
      omega

theorem countEq_eq_zero_of_not_mem (l : List Value) (item : Value)
    (h : item ∉ l) : countEq l item = 0 := by
  induction l with
  | nil => rfl
  | cons x xs ih =>
      simp only [List.mem_cons, not_or] at h
      have hx : x ≠ item := fun hh => h.1 hh.symm
      simp [countEq, hx, ih h.2]

theorem one_le_countEq_of_mem (l : List Value) (item : Value)
    (h : item ∈ l) : 1 ≤ countEq l item := by
  induction l with
  | nil => simp at h
  | cons x xs ih =>
      rcases List.mem_cons.mp h with rfl | hmem
      · simp [countEq]
      · by_cases hx : x = item
        · simp [countEq, hx]
        · simpa [countEq, hx] using ih hmem

/-- **C7 counterexample** — the claim fails as stated: with the stored
sequence `[1,1]`, toggling `1` removes both occurrences and toggling
again appends only one, so two toggles end at `[1]` — not the original
multiset. -/
theorem chalkit_c7_toggle_counterexample :
    (mutObj (mutObj [("t", .arr [.num 1, .num 1])] "t"
        (.arrayToggle (.num 1))).1 "t" (.arrayToggle (.num 1))).1 ≠
      [("t", .arr [.num 1, .num 1])] := by decide

/-- **C7 amended** — For every scalar item occurring at most once in the
stored sequence: one application of `arrayToggle` removes all occurrences
of the item (deep value equality) if it is present, else appends it once;
and applying it twice restores the multiset of contents — the count of
the item and the subsequence of all other elements (in order) are both
back to their original values (the item itself may move to the end). -/
theorem chalkit_c7_toggle_involution (parent : Obj) (fk : String)
    (item : Value) (h1 : item.isScalar = true)
    (h2 : countEq (coerceArr (getKey parent fk)) item ≤ 1) :
    (coerceArr (getKey (mutObj parent fk (.arrayToggle item)).1 fk) =
      (if item ∈ coerceArr (getKey parent fk)
       then removeAllEq (coerceArr (getKey parent fk)) item
       else coerceArr (getKey parent fk) ++ [item])) ∧
    (countEq (coerceArr (getKey
        (mutObj (mutObj parent fk (.arrayToggle item)).1 fk
          (.arrayToggle item)).1 fk)) item =
      countEq (coerceArr (getKey parent fk)) item) ∧
    (removeAllEq (coerceArr (getKey
        (mutObj (mutObj parent fk (.arrayToggle item)).1 fk
          (.arrayToggle item)).1 fk)) item =
      removeAllEq (coerceArr (getKey parent fk)) item) := by
  have step : ∀ o : Obj, coerceArr (getKey (mutObj o fk (.arrayToggle item)).1 fk) =
      (if (coerceArr (getKey o fk)).any (fun x => jsEq x item)
       then (coerceArr (getKey o fk)).filter (fun x => !(jsEq x item))
       else coerceArr (getKey o fk) ++ [item]) := by
    intro o
    simp only [mutObj, getKey_setKey_self, coerceArr]
  by_cases hmem : item ∈ coerceArr (getKey parent fk)
  · have hany : (coerceArr (getKey parent fk)).any (fun x => jsEq x item) = true :=
      (any_jsEq_iff_mem _ item h1).mpr hmem
    have hl1 : coerceArr (getKey (mutObj parent fk (.arrayToggle item)).1 fk) =
        removeAllEq (coerceArr (getKey parent fk)) item := by
      rw [step parent, if_pos hany, filter_jsEq_eq_removeAllEq _ item h1]
    have hany2 : (removeAllEq (coerceArr (getKey parent fk)) item).any
        (fun x => jsEq x item) = false := by
      cases hb : (removeAllEq (coerceArr (getKey parent fk)) item).any
          (fun x => jsEq x item)
      · rfl
      · exact absurd ((any_jsEq_iff_mem _ item h1).mp hb)
          (not_mem_removeAllEq _ item)
    have hl2 : coerceArr (getKey
        (mutObj (mutObj parent fk (.arrayToggle item)).1 fk
          (.arrayToggle item)).1 fk) =
        removeAllEq (coerceArr (getKey parent fk)) item ++ [item] := by
      rw [step _, hl1, if_neg (by simp [hany2])]
    have hcount : countEq (coerceArr (getKey parent fk)) item = 1 :=
      Nat.le_antisymm h2 (one_le_countEq_of_mem _ item hmem)
    refine ⟨by rw [hl1, if_pos hmem], ?_, ?_⟩
    · rw [hl2, countEq_append,
        countEq_eq_zero_of_not_mem _ item (not_mem_removeAllEq _ item), hcount]
      simp [countEq]
    · rw [hl2, removeAllEq_append, removeAllEq_idem]
      simp [removeAllEq]
  · have hany : (coerceArr (getKey parent fk)).any (fun x => jsEq x item) = false := by
      cases hb : (coerceArr (getKey parent fk)).any (fun x => jsEq x item)
      · rfl
      · exact absurd ((any_jsEq_iff_mem _ item h1).mp hb) hmem
    have hl1 : coerceArr (getKey (mutObj parent fk (.arrayToggle item)).1 fk) =
        coerceArr (getKey parent fk) ++ [item] := by
      rw [step parent, if_neg (by simp [hany])]
    have hany2 : (coerceArr (getKey parent fk) ++ [item]).any
        (fun x => jsEq x item) = true :=
      (any_jsEq_iff_mem _ item h1).mpr
        (List.mem_append.mpr (Or.inr (List.mem_singleton.mpr rfl)))
    have hl2 : coerceArr (getKey
        (mutObj (mutObj parent fk (.arrayToggle item)).1 fk
          (.arrayToggle item)).1 fk) =
        coerceArr (getKey parent fk) := by
      rw [step _, hl1, if_pos hany2, filter_jsEq_eq_removeAllEq _ item h1,
        removeAllEq_append, removeAllEq_of_not_mem _ item hmem]
      simp [removeAllEq]
    exact ⟨by rw [hl1, if_neg hmem], by rw [hl2], by rw [hl2]⟩

/-- Witness for the amended C7: in `["Task 1","Task 2"]`, toggling
`"Task 2"` removes it, toggling again restores the contents. -/
theorem chalkit_c7_toggle_involution_witness :
    (coerceArr (getKey (mutObj [("t", .arr [.str "Task 1", .str "Task 2"])] "t"
        (.arrayToggle (.str "Task 2"))).1 "t") =
      (if Value.str "Task 2" ∈
          coerceArr (getKey [("t", .arr [.str "Task 1", .str "Task 2"])] "t")
       then removeAllEq
         (coerceArr (getKey [("t", .arr [.str "Task 1", .str "Task 2"])] "t"))
         (.str "Task 2")
       else coerceArr (getKey [("t", .arr [.str "Task 1", .str "Task 2"])] "t")
         ++ [.str "Task 2"])) ∧
    countEq (coerceArr (getKey
        (mutObj (mutObj [("t", .arr [.str "Task 1", .str "Task 2"])] "t"
          (.arrayToggle (.str "Task 2"))).1 "t" (.arrayToggle (.str "Task 2"))).1
        "t")) (.str "Task 2") =
      countEq (coerceArr (getKey [("t", .arr [.str "Task 1", .str "Task 2"])] "t"))
        (.str "Task 2") ∧
    removeAllEq (coerceArr (getKey
        (mutObj (mutObj [("t", .arr [.str "Task 1", .str "Task 2"])] "t"
          (.arrayToggle (.str "Task 2"))).1 "t" (.arrayToggle (.str "Task 2"))).1
        "t")) (.str "Task 2") =
      removeAllEq (coerceArr (getKey [("t", .arr [.str "Task 1", .str "Task 2"])] "t"))
        (.str "Task 2") :=
  chalkit_c7_toggle_involution [("t", .arr [.str "Task 1", .str "Task 2"])] "t"
    (.str "Task 2") (by decide) (by decide)

end Chalkit
